import Mathlib

/-
Verification development for the beat-merge / MIDI-tempo / drum-loop repository.

Shallow embedding conventions:
* Python floats are modelled as rationals (ℚ); Python ints as ℤ or ℕ.
* Python `list.sort(key=...)` is a stable sort; it is modelled by a stable
  insertion sort (`sortByFst`), which computes the same function as any
  stable sort by the same key.
* Code that can raise an exception is modelled with `Option`; `none` marks a
  raised exception (ValueError / IndexError / ZeroDivisionError).
* `int(x)` (truncation towards zero) is modelled by `pyInt`.
* Python `%` on integers (sign of the divisor) is modelled by `Int.fmod`.
-/

/-- Python value as it appears in the heterogeneous results of
`BeatMidiConverter.merge_beats`: a list of floats, a list of ints, or a
string (a dictionary key, when a dict is iterated by unpacking). -/
inductive PyVal
  | ratList (l : List ℚ)
  | intList (l : List ℤ)
  | str (s : String)
deriving DecidableEq, Repr

/-- Return value of `merge_beats`: the empty-input branches return a Python
dict (modelled as an association list in insertion order), the main branch
returns a 3-tuple `(final_beats, final_positions, merged_downbeats)`. -/
inductive MergeRet
  | dict (entries : List (String × PyVal))
  | tuple (beats : List ℚ) (ps : List ℤ) (downs : List ℚ)
deriving DecidableEq, Repr

/-- Python 3-way unpacking `a, b, c = r`: iterating a dict of three entries
yields its three keys (insertion order); a 3-tuple yields its components. -/
def unpack3 : MergeRet → Option (PyVal × PyVal × PyVal)
  | .dict entries =>
    match entries with
    | [a, b, c] => some (.str a.1, .str b.1, .str c.1)
    | _ => none
  | .tuple x y z => some (.ratList x, .intList y, .ratList z)

/-- Truncation towards zero, the semantics of Python `int()` on a float. -/
def pyInt (q : ℚ) : ℤ := if 0 ≤ q then ⌊q⌋ else -⌊-q⌋

/-- Python `min` of a list of floats (the empty case is never reached where
this is used, the call sites are guarded by non-emptiness checks). -/
def listMinQ (l : List ℚ) : ℚ := l.foldl min (l.headD 0)

/-- Python `max` of a list of floats. -/
def listMaxQ (l : List ℚ) : ℚ := l.foldl max (l.headD 0)

/-- Python `max` of a list of ints; `none` models the ValueError raised on an
empty list. -/
def pyMaxInt : List ℤ → Option ℤ
  | [] => none
  | p :: rest => some (rest.foldl max p)

/-- Pairs `(b, i+1)` produced by `zip(beat2, range(1, len(beat2) + 1))`. -/
def enumPairs (l : List ℚ) : List (ℚ × ℤ) :=
  (l.zip (List.range l.length)).map (fun bi => (bi.1, (bi.2 : ℤ) + 1))

/-- Insertion of one `(time, position)` pair into an accumulator sorted by
time, after all entries with a key less than or equal to its own (keeping
stability for equal keys). -/
def insSorted (x : ℚ × ℤ) : List (ℚ × ℤ) → List (ℚ × ℤ)
  | [] => [x]
  | y :: rest => if y.1 ≤ x.1 then y :: insSorted x rest else x :: y :: rest

/-- Stable sort by the first component, modelling
`merged_beats.sort(key=lambda x: x[0])` (Python's sort is stable). -/
def sortByFst (l : List (ℚ × ℤ)) : List (ℚ × ℤ) :=
  l.foldl (fun acc x => insSorted x acc) []

/-- Greedy deduplication pass of `merge_beats`: keep an event only when its
time is farther than `tol` from the time of the last kept event (`last`). -/
def dedupLoop (tol : ℚ) : ℚ → List (ℚ × ℤ) → List (ℚ × ℤ)
  | _, [] => []
  | last, bp :: rest =>
    if tol < |bp.1 - last| then bp :: dedupLoop tol bp.1 rest
    else dedupLoop tol last rest

/-- Partition step of `merge_beats`: secondary events strictly earlier than
`min(beat1) - tolerance`. -/
def beat2Before (beat2 : List ℚ) (beat1_start tol : ℚ) : List (ℚ × ℤ) :=
  (enumPairs beat2).filter (fun bp => bp.1 < beat1_start - tol)

/-- Partition step of `merge_beats`: secondary events strictly later than
`max(beat1) + tolerance`. -/
def beat2After (beat2 : List ℚ) (beat1_end tol : ℚ) : List (ℚ × ℤ) :=
  (enumPairs beat2).filter (fun bp => beat1_end + tol < bp.1)

/-- Concatenation `beat2_before + zip(beat1, beat_positions1) + beat2_after`
followed by the stable sort on time, as in `merge_beats`. -/
def mergedSorted (beat1 beat2 : List ℚ) (ps1 : List ℤ) (tol : ℚ) :
    List (ℚ × ℤ) :=
  sortByFst (beat2Before beat2 (listMinQ beat1) tol
    ++ beat1.zip ps1 ++ beat2After beat2 (listMaxQ beat1) tol)

/-- Times surviving the deduplication pass (`final_beats` in the source);
the empty case corresponds to the IndexError of `merged_beats[0]` and is
excluded separately in `merge_beats`. -/
def finalBeatsOf (beat1 beat2 : List ℚ) (ps1 : List ℤ) (tol : ℚ) : List ℚ :=
  match mergedSorted beat1 beat2 ps1 tol with
  | [] => []
  | m0 :: mrest => (m0 :: dedupLoop tol m0.1 mrest).map Prod.fst

/-- Membership flags computed before the renumbering: `1` when a surviving
time occurs (by exact equality) in either downbeat list, else `0`. -/
def flagsOf (d1 d2 : List ℚ) (final_beats : List ℚ) : List ℤ :=
  final_beats.map (fun b => if b ∈ d1 ∨ b ∈ d2 then 1 else 0)

/-- Renumbering formula of the source code, with `start_number = q - k + 1`
inlined: position `((q - k + 1 + i) mod q)`, mapping `0` to `q`. -/
def codePos (q k : ℤ) (i : ℕ) : ℤ :=
  let beat_num := Int.fmod (q - k + 1 + (i : ℤ)) q
  if beat_num = 0 then q else beat_num

/-- Embedding of `BeatMidiConverter.merge_beats`. `none` models a raised
exception (empty `merged_beats`, `max` of an empty positions list, a missing
downbeat flag in `final_positions.index(1)`, or a zero bar size in `%`). -/
def merge_beats (beat1 beat2 : List ℚ) (ps1 : List ℤ) (d1 d2 : List ℚ)
    (tol : ℚ) : Option MergeRet :=
  if beat1 = [] then
    some (.dict [("beats", .ratList beat2),
      ("beat_positions", .intList (beat2.map fun b => if b ∈ d2 then 1 else 2)),
      ("downbeats", .ratList d2)])
  else if beat2 = [] then
    some (.dict [("beats", .ratList beat1),
      ("beat_positions", .intList (beat1.map fun b => if b ∈ d1 then 1 else 2)),
      ("downbeats", .ratList d1)])
  else
    match mergedSorted beat1 beat2 ps1 tol with
    | [] => none
    | _ :: _ =>
      let final_beats := finalBeatsOf beat1 beat2 ps1 tol
      let fl := flagsOf d1 d2 final_beats
      match pyMaxInt ps1 with
      | none => none
      | some q =>
        match fl.findIdx? (fun x => x == 1) with
        | none => none
        | some idx =>
          if q = 0 then none
          else
            let k : ℤ := (fl.take idx).count 0
            let final_positions :=
              (List.range final_beats.length).map (codePos q k)
            let merged_downbeats :=
              ((final_beats.zip final_positions).filter
                (fun bp => bp.2 = 1)).map Prod.fst
            some (.tuple final_beats final_positions merged_downbeats)

/-- Renumbering formula as written in the specification text (claim C1):
`((beatsPerBar - k + i) mod beatsPerBar)`, mapping `0` to `beatsPerBar`. -/
def specC1Pos (q k : ℤ) (i : ℕ) : ℤ :=
  let r := Int.fmod (q - k + i) q
  if r = 0 then q else r

/-- Embedding of `BeatMidiConverter.time_to_beat_position`. The Python loop
returns at the first index whose beat time is at or after `t`; the
fall-through handles times past the last beat. -/
def time_to_beat_position (t : ℚ) (beats : List ℚ) : ℚ :=
  if beats = [] then 0
  else
    match beats.findIdx? (fun b => decide (t ≤ b)) with
    | some i =>
      if i = 0 then 0
      else
        let prev := beats.getD (i - 1) 0
        let bt := beats.getD i 0
        let interval := bt - prev
        if 0 < interval then (i : ℚ) + (t - prev) / interval else (i : ℚ)
    | none =>
      if 2 ≤ beats.length then
        let last := beats.getD (beats.length - 1) 0
        let penult := beats.getD (beats.length - 2) 0
        let last_interval := last - penult
        if 0 < last_interval then
          (beats.length : ℚ) + (t - last) / last_interval
        else (beats.length : ℚ)
      else (beats.length : ℚ)

/-- Tempo-track message: mido meta messages appended by
`create_tempo_track`, each carrying a delta `time` in ticks. -/
inductive TrackMsg
  | trackName (time : ℤ)
  | setTempo (tempo : ℤ) (time : ℤ)
  | endOfTrack (time : ℤ)
deriving DecidableEq, Repr

/-- Delta time carried by a track message. -/
def TrackMsg.delta : TrackMsg → ℤ
  | .trackName t => t
  | .setTempo _ t => t
  | .endOfTrack t => t

/-- Main loop of `create_tempo_track`: `i` runs over `range(1, len(beats))`,
`pairs` holds `(beats[i-1], beats[i])`; each positive interval emits a
`set_tempo` whose delta is the target absolute tick minus the sum of the
deltas already on the track. -/
def tempoLoop (tpb currentTick : ℤ) : ℤ → List (ℚ × ℚ) → List TrackMsg →
    List TrackMsg
  | _, [], track => track
  | i, pr :: rest, track =>
    let tick := currentTick + (i - 1) * tpb
    let delta := tick - (track.map TrackMsg.delta).sum
    let interval := pr.2 - pr.1
    if interval ≤ 0 then tempoLoop tpb currentTick (i + 1) rest track
    else
      tempoLoop tpb currentTick (i + 1) rest
        (track ++ [.setTempo (pyInt (60000000 / (60 / interval))) delta])

/-- Embedding of `BeatMidiConverter.create_tempo_track`; `none` models the
IndexError of `beats[0]` on an empty list. -/
def create_tempo_track (tpb : ℤ) (beats : List ℚ) : Option (List TrackMsg) :=
  match beats with
  | [] => none
  | b0 :: _ =>
    let track0 : List TrackMsg := [.trackName 0]
    let st :=
      if 0 < b0 then
        (track0 ++ [.setTempo (pyInt (60000000 / (60 / b0))) 0], tpb)
      else (track0, 0)
    let track2 := tempoLoop tpb st.2 1 (beats.zip beats.tail) st.1
    some (track2 ++ [.endOfTrack 0])

/-- Absolute tick of each message of a track, as the running sum of deltas
starting from `acc`. -/
def absTicks (acc : ℤ) : List TrackMsg → List ℤ
  | [] => []
  | m :: rest => (acc + m.delta) :: absTicks (acc + m.delta) rest

/-- Check that every `set_tempo` on a track carries a positive
`microsecondsPerBeat`, the guarantee stated by the specification. -/
def temposPositive (track : List TrackMsg) : Bool :=
  track.all fun m =>
    match m with
    | .setTempo tempo _ => decide (0 < tempo)
    | _ => true

/-- Drum event extracted from a fragment MIDI file: delta time, note,
velocity, and whether the message is a note-on. -/
structure DrumEvent where
  time : ℤ
  note : ℤ
  velocity : ℤ
  isOn : Bool
deriving DecidableEq, Repr

/-- Fragment library built by the directory walk of `sample_drum_loops`
(the walk itself is filesystem work outside the embedded core). -/
structure DrumLib where
  start : List (List DrumEvent)
  midRegular : List (List DrumEvent)
  midSmall : List (List DrumEvent)
  midBig : List (List DrumEvent)
  ending : List (List DrumEvent)
deriving DecidableEq, Repr

/-- Model of `random.choice`: the oracle value `k` selects index
`k mod len`; `none` models the IndexError raised on an empty sequence. -/
def pick (k : ℕ) (l : List α) : Option α := l.get? (k % l.length)

/-- Embedding of `DrumLoopSampler.get_target_beats`: walk every message of
every track, accumulate the delta of each `set_tempo` onto a running tick
that starts at 480, and record the running tick at each tempo change. -/
def get_target_beats (tracks : List (List TrackMsg)) : List ℤ :=
  (tracks.flatten.foldl
    (fun st m =>
      match m with
      | .setTempo _ dt => (st.1 + dt, st.2 ++ [st.1 + dt])
      | _ => st)
    ((480 : ℤ), ([] : List ℤ))).2

/-- Start-region emission loop of `sample_drum_loops`: for each fragment
event, when the track built so far is still empty the event's `time` field
is incremented in place by `shift` before the message is appended. Returns
the track and the fragment as it is left in the library (the in-place
update is visible there). -/
def startEmit (shift : ℤ) : List DrumEvent → List DrumEvent →
    List DrumEvent × List DrumEvent
  | [], track => (track, [])
  | e :: rest, track =>
    let e' := if track.isEmpty then { e with time := e.time + shift } else e
    let res := startEmit shift rest (track ++ [e'])
    (res.1, e' :: res.2)

/-- Mid-region category for rotation step `m`, following
`mid_sampling_order = [regular, transition-small, regular, transition-big]`. -/
def midCat (lib : DrumLib) (m : ℕ) : List (List DrumEvent) :=
  match m % 4 with
  | 1 => lib.midSmall
  | 3 => lib.midBig
  | _ => lib.midRegular

/-- Mid-region while-loop of `sample_drum_loops`. The fuel argument bounds
the iteration count; it is instantiated so that it never runs out when the
slot width is positive, and `none` marks the diverging runs (slot width
non-positive while the loop condition holds) as erroneous. -/
def midLoop (sel : ℕ → ℕ) (lib : DrumLib) (bound midLen : ℤ) :
    ℕ → List DrumEvent → ℤ → ℕ → ℕ → Option (List DrumEvent × ℤ × ℕ)
  | 0, track, cur, dc, _ =>
    if cur < bound then none else some (track, cur, dc)
  | fuel + 1, track, cur, dc, m =>
    if cur < bound then
      match pick (sel dc) (midCat lib m) with
      | none => none
      | some frag =>
        midLoop sel lib bound midLen fuel (track ++ frag) (cur + midLen)
          (dc + 1) (m + 1)
    else some (track, cur, dc)

/-- Library state after the start region drew the fragment stored at index
`j`: that entry now holds the fragment as left by the in-place `time`
update of `startEmit`; every other entry is untouched. -/
def startMutate (lib : DrumLib) (prefix_beat : ℤ) (j : ℕ)
    (frag : List DrumEvent) : DrumLib :=
  let frag' := (startEmit (480 * (prefix_beat + 1)) frag []).2
  { lib with start := lib.start.set j frag' }

/-- Start region of `sample_drum_loops`: when the cursor (0) is below the
start width, one start fragment is drawn and emitted with the in-place
shift of its first event; the returned library carries the mutation.
Returns `(track, library, cursor, draws-consumed)`. -/
def startStep (bpb : ℤ) (lib : DrumLib) (prefix_beat : ℤ) (sel : ℕ → ℕ) :
    Option (List DrumEvent × DrumLib × ℤ × ℕ) :=
  if 0 < bpb * 4 + prefix_beat + 1 then
    match pick (sel 0) lib.start with
    | none => none
    | some frag =>
      let j := sel 0 % lib.start.length
      some ((startEmit (480 * (prefix_beat + 1)) frag []).1,
        startMutate lib prefix_beat j frag, bpb * 4 + prefix_beat + 1, 1)
  else some ([], lib, 0, 0)

/-- Embedding of the sequencing part of `DrumLoopSampler.sample_drum_loops`
(after the fragment library has been loaded). `sel` is the randomness
oracle: draw `n` picks index `sel n mod len`. The returned library reflects
the in-place mutation performed by the start region. -/
def sample_drum_loops (bpb : ℤ) (target : List (List TrackMsg))
    (lib : DrumLib) (prefix_beat : ℤ) (sel : ℕ → ℕ) :
    Option (List DrumEvent × DrumLib) :=
  let total : ℤ := (get_target_beats target).length
  let midLen := bpb * 2
  let endLen := bpb * 5
  match startStep bpb lib prefix_beat sel with
  | none => none
  | some (track1, lib1, cur1, dc1) =>
    match midLoop sel lib1 (total - endLen) midLen (total - endLen - cur1).toNat
        track1 cur1 dc1 0 with
    | none => none
    | some (track2, cur2, dc2) =>
      if cur2 < total then
        match pick (sel dc2) lib1.ending with
        | none => none
        | some frag => some (track2 ++ frag, lib1)
      else some (track2, lib1)

lemma mem_insSorted (x : ℚ × ℤ) :
    ∀ l z, z ∈ insSorted x l ↔ z = x ∨ z ∈ l := by
  intro l
  induction l with
  | nil => intro z; simp [insSorted]
  | cons y rest ih =>
    intro z
    by_cases h : y.1 ≤ x.1
    · simp only [insSorted, if_pos h, List.mem_cons, ih]
      tauto
    · simp [insSorted, if_neg h, List.mem_cons]

lemma pairwise_insSorted (x : ℚ × ℤ) :
    ∀ l, l.Pairwise (fun a b => a.1 ≤ b.1) →
      (insSorted x l).Pairwise (fun a b => a.1 ≤ b.1) := by
  intro l
  induction l with
  | nil => intro _; simp [insSorted]
  | cons y rest ih =>
    intro hp
    rcases List.pairwise_cons.mp hp with ⟨hy, hrest⟩
    by_cases h : y.1 ≤ x.1
    · rw [insSorted, if_pos h]
      refine List.pairwise_cons.mpr ⟨?_, ih hrest⟩
      intro z hz
      rcases (mem_insSorted x rest z).mp hz with rfl | hz'
      · exact h
      · exact hy z hz'
    · rw [insSorted, if_neg h]
      refine List.pairwise_cons.mpr ⟨?_, hp⟩
      intro z hz
      rcases List.mem_cons.mp hz with rfl | hz'
      · exact le_of_lt (lt_of_not_le h)
      · exact le_trans (le_of_lt (lt_of_not_le h)) (hy z hz')

lemma length_insSorted (x : ℚ × ℤ) :
    ∀ l, (insSorted x l).length = l.length + 1 := by
  intro l
  induction l with
  | nil => simp [insSorted]
  | cons y rest ih =>
    by_cases h : y.1 ≤ x.1
    · simp [insSorted, if_pos h, ih]
    · simp [insSorted, if_neg h]

lemma pairwise_sortByFst (l : List (ℚ × ℤ)) :
    (sortByFst l).Pairwise (fun a b => a.1 ≤ b.1) := by
  have main : ∀ (l acc : List (ℚ × ℤ)), acc.Pairwise (fun a b => a.1 ≤ b.1) →
      (l.foldl (fun acc x => insSorted x acc) acc).Pairwise
        (fun a b => a.1 ≤ b.1) := by
    intro l
    induction l with
    | nil => intro acc h; simpa using h
    | cons y rest ih =>
      intro acc h
      exact ih (insSorted y acc) (pairwise_insSorted y acc h)
  exact main l [] (by simp)

lemma length_sortByFst (l : List (ℚ × ℤ)) :
    (sortByFst l).length = l.length := by
  have main : ∀ (l acc : List (ℚ × ℤ)),
      (l.foldl (fun acc x => insSorted x acc) acc).length
        = l.length + acc.length := by
    intro l
    induction l with
    | nil => intro acc; simp
    | cons y rest ih =>
      intro acc
      rw [List.foldl_cons, ih (insSorted y acc), length_insSorted]
      simp [List.length_cons]
      omega
  simpa using main l []

lemma dedupLoop_spec (tol : ℚ) :
    ∀ (l : List (ℚ × ℤ)) (last : ℚ),
      l.Pairwise (fun a b => a.1 ≤ b.1) → (∀ x ∈ l, last ≤ x.1) →
      ((dedupLoop tol last l).Pairwise
          (fun a b => a.1 ≤ b.1 ∧ tol < |a.1 - b.1|)
        ∧ ∀ y ∈ dedupLoop tol last l, last ≤ y.1 ∧ tol < |y.1 - last|) := by
  intro l
  induction l with
  | nil => intro last _ _; simp [dedupLoop]
  | cons bp rest ih =>
    intro last hp hge
    rcases List.pairwise_cons.mp hp with ⟨hbp, hrest⟩
    have hlastbp : last ≤ bp.1 := hge bp (List.mem_cons_self bp rest)
    by_cases h : tol < |bp.1 - last|
    · rw [dedupLoop, if_pos h]
      rcases ih bp.1 hrest hbp with ⟨ihp, ihinv⟩
      constructor
      · refine List.pairwise_cons.mpr ⟨?_, ihp⟩
        intro z hz
        rcases ihinv z hz with ⟨hz1, hz2⟩
        exact ⟨hz1, by rwa [abs_sub_comm]⟩
      · intro y hy
        rcases List.mem_cons.mp hy with rfl | hy'
        · exact ⟨hlastbp, h⟩
        · rcases ihinv y hy' with ⟨hy1, hy2⟩
          refine ⟨le_trans hlastbp hy1, ?_⟩
          have h1 : bp.1 ≤ y.1 := hy1
          rw [abs_of_nonneg (by linarith)] at hy2 ⊢
          linarith
    · rw [dedupLoop, if_neg h]
      refine ih last hrest ?_
      intro x hx
      exact hge x (List.mem_cons_of_mem bp hx)

lemma merge_tuple_inv
    (beat1 beat2 : List ℚ) (ps1 : List ℤ) (d1 d2 : List ℚ) (tol : ℚ)
    (bs : List ℚ) (ps : List ℤ) (ds : List ℚ)
    (h1 : beat1 ≠ []) (h2 : beat2 ≠ [])
    (hm : merge_beats beat1 beat2 ps1 d1 d2 tol = some (.tuple bs ps ds)) :
    ∃ q idx, pyMaxInt ps1 = some q
      ∧ (flagsOf d1 d2 (finalBeatsOf beat1 beat2 ps1 tol)).findIdx?
          (fun x => x == 1) = some idx
      ∧ q ≠ 0
      ∧ bs = finalBeatsOf beat1 beat2 ps1 tol
      ∧ ps = (List.range bs.length).map
          (codePos q (((flagsOf d1 d2 bs).take idx).count 0))
      ∧ ds = ((bs.zip ps).filter (fun bp => bp.2 = 1)).map Prod.fst := by
  rw [merge_beats, if_neg h1, if_neg h2] at hm
  rcases hms : mergedSorted beat1 beat2 ps1 tol with _ | ⟨m0, mrest⟩
  · rw [hms] at hm; simp at hm
  · rw [hms] at hm
    rcases hq : pyMaxInt ps1 with _ | q
    · rw [hq] at hm; simp at hm
    · rw [hq] at hm
      dsimp only at hm
      rcases hidx : (flagsOf d1 d2 (finalBeatsOf beat1 beat2 ps1 tol)).findIdx?
          (fun x => x == 1) with _ | idx
      · rw [hidx] at hm; simp at hm
      · rw [hidx] at hm
        dsimp only at hm
        by_cases hq0 : q = 0
        · rw [if_pos hq0] at hm; simp at hm
        · rw [if_neg hq0] at hm
          simp only [Option.some.injEq, MergeRet.tuple.injEq] at hm
          rcases hm with ⟨hbs, hps, hds⟩
          refine ⟨q, idx, rfl, rfl, hq0, hbs.symm, ?_, ?_⟩
          · rw [← hps, ← hbs]
          · rw [← hds, ← hbs, ← hps]

/-- C1 (amended): in a non-degenerate merge that returns, with `k` the
count of non-downbeat events before the first surviving flagged downbeat
and `beatsPerBar` the maximum primary position, the surviving event at
index `i` is assigned position `((beatsPerBar - k + 1 + i) mod beatsPerBar)`,
with a result of `0` mapped to `beatsPerBar` (one more than the formula the
specification text states). -/
theorem merge_positions_renumbered
    (beat1 beat2 : List ℚ) (ps1 : List ℤ) (d1 d2 : List ℚ) (tol : ℚ)
    (bs : List ℚ) (ps : List ℤ) (ds : List ℚ)
    (h1 : beat1 ≠ []) (h2 : beat2 ≠ [])
    (hm : merge_beats beat1 beat2 ps1 d1 d2 tol = some (.tuple bs ps ds)) :
    ∃ q idx, pyMaxInt ps1 = some q
      ∧ (flagsOf d1 d2 bs).findIdx? (fun x => x == 1) = some idx
      ∧ ps.length = bs.length
      ∧ ∀ i (hi : i < ps.length),
          ps.get ⟨i, hi⟩ = codePos q (((flagsOf d1 d2 bs).take idx).count 0) i := by
  rcases merge_tuple_inv beat1 beat2 ps1 d1 d2 tol bs ps ds h1 h2 hm with
    ⟨q, idx, hq, hidx, hq0, hbs, hps, hds⟩
  subst hbs
  refine ⟨q, idx, hq, hidx, ?_, ?_⟩
  · rw [hps]; simp
  · intro i hi
    subst hps
    simp [List.get_eq_getElem, List.getElem_map, List.getElem_range]

theorem merge_positions_renumbered_witness :
    ∃ q idx, pyMaxInt [1, 2] = some q
      ∧ (flagsOf [1] [] ([1, 3/2, 3] : List ℚ)).findIdx? (fun x => x == 1) = some idx
      ∧ ([1, 2, 1] : List ℤ).length = ([1, 3/2, 3] : List ℚ).length
      ∧ ∀ i (hi : i < ([1, 2, 1] : List ℤ).length),
          ([1, 2, 1] : List ℤ).get ⟨i, hi⟩
            = codePos q (((flagsOf [1] [] ([1, 3/2, 3] : List ℚ)).take idx).count 0) i := by
  refine merge_positions_renumbered [1, 3/2] [3] [1, 2] [1] [] (1/10)
    [1, 3/2, 3] [1, 2, 1] [1, 3] (by simp) (by simp) ?_
  norm_num [merge_beats, mergedSorted, finalBeatsOf, flagsOf, beat2Before,
    beat2After, enumPairs, sortByFst, insSorted, dedupLoop, listMinQ,
    listMaxQ, pyMaxInt, codePos, List.range_succ, List.filter, lt_abs,
    Int.fmod, List.cons_ne_nil]

/-- C1 counterexample: on a concrete non-degenerate merge the code assigns
the first surviving event position `1`, while the specification's formula
`((beatsPerBar - k + i) mod beatsPerBar)` (with `0` mapped to
`beatsPerBar`) yields `2` at `i = 0` with `beatsPerBar = 2`, `k = 0`. -/
theorem merge_positions_spec_formula_refuted :
    merge_beats [1, 3/2] [3] [1, 2] [1] [] (1/10)
      = some (.tuple [1, 3/2, 3] [1, 2, 1] [1, 3])
    ∧ pyMaxInt [1, 2] = some 2
    ∧ (flagsOf [1] [] ([1, 3/2, 3] : List ℚ)).findIdx? (fun x => x == 1) = some 0
    ∧ specC1Pos 2 0 0 ≠ 1 := by
  refine ⟨?_, by decide, ?_, by decide⟩
  · norm_num [merge_beats, mergedSorted, finalBeatsOf, flagsOf, beat2Before,
      beat2After, enumPairs, sortByFst, insSorted, dedupLoop, listMinQ,
      listMaxQ, pyMaxInt, codePos, List.range_succ, List.filter, lt_abs,
      Int.fmod, List.cons_ne_nil]
  · norm_num [flagsOf, List.findIdx?]

/-- C6: in every non-degenerate merge that returns, any two distinct beat
times of the result are more than `tolerance` apart, and for a non-negative
tolerance the result is strictly increasing. -/
theorem merge_result_separated
    (beat1 beat2 : List ℚ) (ps1 : List ℤ) (d1 d2 : List ℚ) (tol : ℚ)
    (bs : List ℚ) (ps : List ℤ) (ds : List ℚ)
    (h1 : beat1 ≠ []) (h2 : beat2 ≠ [])
    (hm : merge_beats beat1 beat2 ps1 d1 d2 tol = some (.tuple bs ps ds)) :
    (∀ a ∈ bs, ∀ b ∈ bs, a ≠ b → tol < |a - b|)
      ∧ (0 ≤ tol → bs.Pairwise (· < ·)) := by
  rcases merge_tuple_inv beat1 beat2 ps1 d1 d2 tol bs ps ds h1 h2 hm with
    ⟨q, idx, _, _, _, hbs, _, _⟩
  subst hbs
  have hsorted : (mergedSorted beat1 beat2 ps1 tol).Pairwise
      (fun a b => a.1 ≤ b.1) := pairwise_sortByFst _
  rcases hms : mergedSorted beat1 beat2 ps1 tol with _ | ⟨m0, mrest⟩
  · rw [finalBeatsOf, hms]
    constructor
    · intro a ha; simp at ha
    · intro _; simp
  · rw [hms] at hsorted
    rcases List.pairwise_cons.mp hsorted with ⟨hm0, hmrest⟩
    rcases dedupLoop_spec tol mrest m0.1 hmrest hm0 with ⟨hdp, hdinv⟩
    have hpair : ((m0 :: dedupLoop tol m0.1 mrest).map Prod.fst).Pairwise
        (fun a b : ℚ => a ≤ b ∧ tol < |a - b|) := by
      refine List.Pairwise.map Prod.fst (fun a b h => h) ?_
      refine List.pairwise_cons.mpr ⟨?_, hdp⟩
      intro z hz
      rcases hdinv z hz with ⟨hz1, hz2⟩
      exact ⟨hz1, by rwa [abs_sub_comm]⟩
    rw [finalBeatsOf, hms]
    constructor
    · have hpair' : ((m0 :: dedupLoop tol m0.1 mrest).map Prod.fst).Pairwise
          (fun a b : ℚ => tol < |a - b|) := hpair.imp (fun h => h.2)
      have hsym : Symmetric (fun a b : ℚ => tol < |a - b|) := by
        intro a b h; rwa [abs_sub_comm]
      exact fun a ha b hb hab => hpair'.forall hsym ha hb hab
    · intro htol
      refine hpair.imp ?_
      rintro a b ⟨hle, habs⟩
      rcases lt_or_eq_of_le hle with h | rfl
      · exact h
      · rw [sub_self, abs_zero] at habs; linarith

theorem merge_result_separated_witness :
    (3:ℚ)/10 < |(0:ℚ) - 1| := by
  have hm : merge_beats [1, 2] [0, 3] [1, 2] [1] [0] (3/10)
      = some (.tuple [0, 1, 2, 3] [1, 2, 1, 2] [0, 2]) := by
    norm_num [merge_beats, mergedSorted, finalBeatsOf, flagsOf, beat2Before,
      beat2After, enumPairs, sortByFst, insSorted, dedupLoop, listMinQ,
      listMaxQ, pyMaxInt, codePos, List.range_succ, List.filter, lt_abs,
      Int.fmod, List.cons_ne_nil]
  exact (merge_result_separated [1, 2] [0, 3] [1, 2] [1] [0] (3/10)
      [0, 1, 2, 3] [1, 2, 1, 2] [0, 2] (by simp) (by simp) hm).1
    0 (by norm_num) 1 (by norm_num) (by norm_num)

/-- C4 (amended): merging a non-empty primary with an empty secondary
returns the primary beats and downbeats verbatim, but replaces the primary
positions by `1` on exact downbeat matches and `2` everywhere else. -/
theorem merge_empty_secondary
    (beat1 : List ℚ) (ps1 : List ℤ) (d1 d2 : List ℚ) (tol : ℚ)
    (h1 : beat1 ≠ []) :
    merge_beats beat1 [] ps1 d1 d2 tol
      = some (.dict [("beats", .ratList beat1),
          ("beat_positions",
            .intList (beat1.map fun b => if b ∈ d1 then 1 else 2)),
          ("downbeats", .ratList d1)]) := by
  rw [merge_beats, if_neg h1]
  norm_num

theorem merge_empty_secondary_witness :
    merge_beats [2, 3] [] [1, 2] [2] [] (1/10)
      = some (.dict [("beats", .ratList [2, 3]),
          ("beat_positions", .intList [1, 2]),
          ("downbeats", .ratList [2])]) := by
  have h := merge_empty_secondary [2, 3] [1, 2] [2] [] (1/10) (by simp)
  norm_num at h
  exact h

/-- C4 counterexample: a non-empty primary with positions `[1, 2, 3]` merged
against an empty secondary comes back with positions `[1, 2, 2]`, not with
its original positions untouched. -/
theorem merge_empty_secondary_positions_refuted :
    merge_beats [1, 3/2, 2] [] [1, 2, 3] [1] [] (3/10)
      = some (.dict [("beats", .ratList [1, 3/2, 2]),
          ("beat_positions", .intList [1, 2, 2]),
          ("downbeats", .ratList [1])])
    ∧ ([1, 2, 2] : List ℤ) ≠ [1, 2, 3] := by
  constructor
  · norm_num [merge_beats, List.cons_ne_nil]
  · decide

lemma mergedSorted_ne_nil (beat1 beat2 : List ℚ) (ps1 : List ℤ) (tol : ℚ)
    (h1 : beat1 ≠ []) (hp : ps1 ≠ []) :
    mergedSorted beat1 beat2 ps1 tol ≠ [] := by
  intro hcontra
  have hlen := length_sortByFst (beat2Before beat2 (listMinQ beat1) tol
    ++ beat1.zip ps1 ++ beat2After beat2 (listMaxQ beat1) tol)
  rw [mergedSorted] at hcontra
  rw [hcontra] at hlen
  simp only [List.length_nil, List.length_append, List.length_zip] at hlen
  rcases beat1 with _ | ⟨b, bs⟩
  · exact h1 rfl
  · rcases ps1 with _ | ⟨p, ps⟩
    · exact hp rfl
    · simp at hlen
      omega

lemma flags_findIdx_exists (d1 d2 : List ℚ) (bs : List ℚ)
    (hflag : ∃ b ∈ bs, b ∈ d1 ∨ b ∈ d2) :
    ∃ idx, (flagsOf d1 d2 bs).findIdx? (fun x => x == 1) = some idx := by
  rcases hfi : (flagsOf d1 d2 bs).findIdx? (fun x => x == 1) with _ | idx
  · exfalso
    rcases hflag with ⟨b, hb, hbd⟩
    have h1mem : (1 : ℤ) ∈ flagsOf d1 d2 bs := by
      rw [flagsOf]
      refine List.mem_map.mpr ⟨b, hb, ?_⟩
      rw [if_pos hbd]
    have := (List.findIdx?_eq_none_iff.mp hfi) 1 h1mem
    simp at this
  · exact ⟨idx, rfl⟩

/-- C5 (amended): the non-degenerate merge raises no exception and returns a
merged result provided the primary positions list is non-empty with a
non-zero maximum and at least one deduplicated beat exactly matches a time
in either downbeat list; without such a surviving match the code raises
`ValueError` in `final_positions.index(1)`. -/
theorem merge_no_exception
    (beat1 beat2 : List ℚ) (ps1 : List ℤ) (d1 d2 : List ℚ) (tol : ℚ) (q : ℤ)
    (h1 : beat1 ≠ []) (h2 : beat2 ≠ [])
    (hq : pyMaxInt ps1 = some q) (hq0 : q ≠ 0)
    (hflag : ∃ b ∈ finalBeatsOf beat1 beat2 ps1 tol, b ∈ d1 ∨ b ∈ d2) :
    ∃ bs ps ds,
      merge_beats beat1 beat2 ps1 d1 d2 tol = some (.tuple bs ps ds) := by
  have hp : ps1 ≠ [] := by
    rcases ps1 with _ | _
    · simp [pyMaxInt] at hq
    · simp
  have hms := mergedSorted_ne_nil beat1 beat2 ps1 tol h1 hp
  obtain ⟨idx, hidx⟩ :=
    flags_findIdx_exists d1 d2 (finalBeatsOf beat1 beat2 ps1 tol) hflag
  rw [merge_beats, if_neg h1, if_neg h2]
  rcases hmm : mergedSorted beat1 beat2 ps1 tol with _ | ⟨m0, mrest⟩
  · exact absurd hmm hms
  · dsimp only
    rw [hq]
    dsimp only
    rw [hidx]
    dsimp only
    rw [if_neg hq0]
    exact ⟨_, _, _, rfl⟩

theorem merge_no_exception_witness :
    ∃ bs ps ds,
      merge_beats [1, 2] [4] [1, 2] [2] [] (1/10)
        = some (.tuple bs ps ds) := by
  refine merge_no_exception [1, 2] [4] [1, 2] [2] [] (1/10) 2
    (by simp) (by simp) (by norm_num [pyMaxInt]) (by norm_num) ?_
  refine ⟨2, ?_, Or.inl (by norm_num)⟩
  norm_num [finalBeatsOf, mergedSorted, beat2Before, beat2After, enumPairs,
    sortByFst, insSorted, dedupLoop, listMinQ, listMaxQ, List.range_succ,
    List.filter, lt_abs]

/-- C5 counterexample: a well-formed pair of non-empty timelines on which
the merge raises: the primary downbeat at `6/5` is removed by the greedy
deduplication, no surviving beat matches any downbeat time, and
`final_positions.index(1)` raises `ValueError` (modelled as `none`). -/
theorem merge_raises_on_lost_downbeat :
    merge_beats [1, 6/5] [5] [2, 1] [6/5] [] (3/10) = none := by
  norm_num [merge_beats, mergedSorted, finalBeatsOf, flagsOf, beat2Before,
    beat2After, enumPairs, sortByFst, insSorted, dedupLoop, listMinQ,
    listMaxQ, pyMaxInt, List.range_succ, List.filter, lt_abs,
    List.cons_ne_nil, List.findIdx?]

/-- C2 (amended): on the concrete scenario (primary `[1, 3/2, 2]`,
positions `[1, 2, 3]`, downbeats `[1]`; secondary
`[0, 1/2, 1, 3/2, 2, 5/2, 3]`, downbeats `[0]`; tolerance `3/10`) the
secondary beats `0` and `1/2` are classified before, `5/2` and `3` after,
deduplication keeps all seven times, and renumbering is anchored at the
first surviving flagged downbeat, which is the one found at time `0` (a
secondary downbeat), yielding positions `[1, 2, 3, 1, 2, 3, 1]` and
downbeats `[0, 3/2, 3]`. -/
theorem merge_scenario_concrete :
    beat2Before [0, 1/2, 1, 3/2, 2, 5/2, 3] (listMinQ [1, 3/2, 2]) (3/10)
        = [(0, 1), (1/2, 2)]
    ∧ beat2After [0, 1/2, 1, 3/2, 2, 5/2, 3] (listMaxQ [1, 3/2, 2]) (3/10)
        = [(5/2, 6), (3, 7)]
    ∧ finalBeatsOf [1, 3/2, 2] [0, 1/2, 1, 3/2, 2, 5/2, 3] [1, 2, 3] (3/10)
        = [0, 1/2, 1, 3/2, 2, 5/2, 3]
    ∧ (flagsOf [1] [0]
        (finalBeatsOf [1, 3/2, 2] [0, 1/2, 1, 3/2, 2, 5/2, 3] [1, 2, 3]
          (3/10))).findIdx? (fun x => x == 1) = some 0
    ∧ merge_beats [1, 3/2, 2] [0, 1/2, 1, 3/2, 2, 5/2, 3] [1, 2, 3] [1] [0]
          (3/10)
        = some (.tuple [0, 1/2, 1, 3/2, 2, 5/2, 3] [1, 2, 3, 1, 2, 3, 1]
            [0, 3/2, 3]) := by
  refine ⟨?_, ?_, ?_, ?_, ?_⟩
  · norm_num [beat2Before, enumPairs, listMinQ, List.range_succ, List.filter]
  · norm_num [beat2After, enumPairs, listMaxQ, List.range_succ, List.filter]
  · norm_num [finalBeatsOf, mergedSorted, beat2Before, beat2After, enumPairs,
      sortByFst, insSorted, dedupLoop, listMinQ, listMaxQ, List.range_succ,
      List.filter, lt_abs]
  · norm_num [finalBeatsOf, mergedSorted, beat2Before, beat2After, enumPairs,
      sortByFst, insSorted, dedupLoop, listMinQ, listMaxQ, List.range_succ,
      List.filter, lt_abs, flagsOf, List.findIdx?]
  · norm_num [merge_beats, mergedSorted, finalBeatsOf, flagsOf, beat2Before,
      beat2After, enumPairs, sortByFst, insSorted, dedupLoop, listMinQ,
      listMaxQ, pyMaxInt, codePos, List.range_succ, List.filter, lt_abs,
      Int.fmod, List.cons_ne_nil, List.findIdx?]

/-- C2 counterexample: in the scenario the first surviving event flagged as
a downbeat sits at index `0`, at time `0` (an exact match of the secondary
downbeat), not at time `1` as the claim states; position renumbering is
therefore anchored at time `0`. -/
theorem merge_scenario_anchor_refuted :
    (flagsOf [1] [0]
        (finalBeatsOf [1, 3/2, 2] [0, 1/2, 1, 3/2, 2, 5/2, 3] [1, 2, 3]
          (3/10))).findIdx? (fun x => x == 1) = some 0
    ∧ (finalBeatsOf [1, 3/2, 2] [0, 1/2, 1, 3/2, 2, 5/2, 3] [1, 2, 3]
        (3/10)).getD 0 99 = 0
    ∧ ((0 : ℚ) = 1 → False) := by
  refine ⟨?_, ?_, by norm_num⟩
  · norm_num [finalBeatsOf, mergedSorted, beat2Before, beat2After, enumPairs,
      sortByFst, insSorted, dedupLoop, listMinQ, listMaxQ, List.range_succ,
      List.filter, lt_abs, flagsOf, List.findIdx?]
  · norm_num [finalBeatsOf, mergedSorted, beat2Before, beat2After, enumPairs,
      sortByFst, insSorted, dedupLoop, listMinQ, listMaxQ, List.range_succ,
      List.filter, lt_abs, List.getD]

/-- C10: the merge result has two shapes: with either input empty it is a
dict whose iteration order yields the keys `beats`, `beat_positions`,
`downbeats`, so the caller's 3-way unpacking binds those three strings;
with both inputs non-empty every returned value is a 3-tuple whose
unpacking binds the three lists. -/
theorem merge_return_shape
    (beat1 beat2 : List ℚ) (ps1 : List ℤ) (d1 d2 : List ℚ) (tol : ℚ) :
    ((beat1 = [] ∨ beat2 = []) →
      ∃ entries, merge_beats beat1 beat2 ps1 d1 d2 tol = some (.dict entries)
        ∧ entries.map Prod.fst = ["beats", "beat_positions", "downbeats"]
        ∧ unpack3 (.dict entries)
            = some (.str "beats", .str "beat_positions", .str "downbeats"))
    ∧ (beat1 ≠ [] → beat2 ≠ [] →
        ∀ r, merge_beats beat1 beat2 ps1 d1 d2 tol = some r →
          ∃ x y z, r = .tuple x y z
            ∧ unpack3 r = some (.ratList x, .intList y, .ratList z)) := by
  constructor
  · intro hempty
    by_cases h1 : beat1 = []
    · subst h1
      rw [merge_beats, if_pos rfl]
      exact ⟨_, rfl, rfl, rfl⟩
    · have h2 : beat2 = [] := hempty.resolve_left h1
      subst h2
      rw [merge_beats, if_neg h1, if_pos rfl]
      exact ⟨_, rfl, rfl, rfl⟩
  · intro h1 h2 r hm
    rcases hr : r with entries | ⟨x, y, z⟩
    · exfalso
      rw [hr] at hm
      rw [merge_beats, if_neg h1, if_neg h2] at hm
      rcases hms : mergedSorted beat1 beat2 ps1 tol with _ | ⟨m0, mrest⟩
      · rw [hms] at hm; simp at hm
      · rw [hms] at hm
        rcases hq : pyMaxInt ps1 with _ | q
        · rw [hq] at hm; simp at hm
        · rw [hq] at hm
          dsimp only at hm
          rcases hidx : (flagsOf d1 d2
              (finalBeatsOf beat1 beat2 ps1 tol)).findIdx?
              (fun x => x == 1) with _ | idx
          · rw [hidx] at hm; simp at hm
          · rw [hidx] at hm
            dsimp only at hm
            by_cases hq0 : q = 0
            · rw [if_pos hq0] at hm; simp at hm
            · rw [if_neg hq0] at hm; simp at hm
    · exact ⟨x, y, z, rfl, rfl⟩

theorem merge_return_shape_witness :
    (∃ entries, merge_beats [] [1, 2] [] [] [1] (1/10)
        = some (.dict entries)
      ∧ entries.map Prod.fst = ["beats", "beat_positions", "downbeats"]
      ∧ unpack3 (.dict entries)
          = some (.str "beats", .str "beat_positions", .str "downbeats"))
    ∧ (∃ x y z, MergeRet.tuple [1, 2, 4] [1, 2, 1] [1, 4] = .tuple x y z
      ∧ unpack3 (.tuple [1, 2, 4] [1, 2, 1] [1, 4])
          = some (.ratList x, .intList y, .ratList z)) := by
  constructor
  · exact (merge_return_shape [] [1, 2] [] [] [1] (1/10)).1 (Or.inl rfl)
  · refine (merge_return_shape [1, 2] [4] [1, 2] [1] [] (1/10)).2
      (by simp) (by simp) (MergeRet.tuple [1, 2, 4] [1, 2, 1] [1, 4]) ?_
    norm_num [merge_beats, mergedSorted, finalBeatsOf, flagsOf, beat2Before,
      beat2After, enumPairs, sortByFst, insSorted, dedupLoop, listMinQ,
      listMaxQ, pyMaxInt, codePos, List.range_succ, List.filter, lt_abs,
      Int.fmod, List.cons_ne_nil, List.findIdx?]

lemma findIdx_ge_eq_some(t : ℚ) (beats : List ℚ) (i : ℕ)
    (hi : i < beats.length) (hhit : t ≤ beats.get ⟨i, hi⟩)
    (hmiss : ∀ j (hj : j < i), beats.get ⟨j, lt_trans hj hi⟩ < t) :
    beats.findIdx? (fun b => decide (t ≤ b)) = some i := by
  refine List.findIdx?_eq_some_iff_getElem.mpr ⟨hi, ?_, ?_⟩
  · simpa using hhit
  · intro j hj
    simpa using hmiss j hj

lemma findIdx_ge_eq_none (t : ℚ) (beats : List ℚ)
    (hall : ∀ b ∈ beats, b < t) :
    beats.findIdx? (fun b => decide (t ≤ b)) = none := by
  refine List.findIdx?_eq_none_iff.mpr ?_
  intro b hb
  simpa using hall b hb

lemma getD_eq_get (l : List ℚ) (n : ℕ) (h : n < l.length) :
    l.getD n 0 = l.get ⟨n, h⟩ := by
  rw [List.getD_eq_getElem?_getD, List.getElem?_eq_getElem h]
  rfl

/-- C3 (amended): for a non-empty strictly increasing beat list the code
returns `0` for any time at or before the first beat; returns `i + 1` (not
`i`) at `beats[i]` for `i ≥ 1`; returns `(i + 1) + (t - beats[i]) /
(beats[i+1] - beats[i])` for times strictly inside `(beats[i], beats[i+1])`;
and past the last beat extrapolates to `len(beats) + (t - last) /
lastInterval` when there are at least two beats, or returns `len(beats)`
(which is `1`, one past the last index) for a single beat. -/
theorem time_to_beat_position_characterized
    (beats : List ℚ) (hne : beats ≠ []) (hsort : beats.Sorted (· < ·)) :
    (∀ t, t ≤ beats.getD 0 0 → time_to_beat_position t beats = 0)
    ∧ (∀ i (hi : i < beats.length), 1 ≤ i →
        time_to_beat_position (beats.get ⟨i, hi⟩) beats = i + 1)
    ∧ (∀ i (hi : i + 1 < beats.length), ∀ t,
        beats.get ⟨i, Nat.lt_of_succ_lt hi⟩ < t → t < beats.get ⟨i + 1, hi⟩ →
        time_to_beat_position t beats
          = (i + 1 : ℚ) + (t - beats.get ⟨i, Nat.lt_of_succ_lt hi⟩)
              / (beats.get ⟨i + 1, hi⟩ - beats.get ⟨i, Nat.lt_of_succ_lt hi⟩))
    ∧ (∀ t, beats.getLast hne < t →
        (2 ≤ beats.length →
          time_to_beat_position t beats
            = (beats.length : ℚ)
              + (t - beats.getD (beats.length - 1) 0)
                / (beats.getD (beats.length - 1) 0
                    - beats.getD (beats.length - 2) 0))
        ∧ (beats.length = 1 → time_to_beat_position t beats = 1)) := by
  have hmono : StrictMono beats.get := hsort.get_strictMono
  have hlenpos : 0 < beats.length := List.length_pos.mpr hne
  refine ⟨?_, ?_, ?_, ?_⟩
  · intro t ht
    have h0 : t ≤ beats.get ⟨0, hlenpos⟩ := by
      rwa [getD_eq_get beats 0 hlenpos] at ht
    rw [time_to_beat_position, if_neg hne,
      findIdx_ge_eq_some t beats 0 hlenpos h0 (fun j hj => absurd hj (by omega))]
    simp
  · intro i hi h1i
    have hhit : beats.get ⟨i, hi⟩ ≤ beats.get ⟨i, hi⟩ := le_refl _
    have hmiss : ∀ j (hj : j < i),
        beats.get ⟨j, lt_trans hj hi⟩ < beats.get ⟨i, hi⟩ := by
      intro j hj
      exact hmono (by simpa using hj)
    rw [time_to_beat_position, if_neg hne,
      findIdx_ge_eq_some _ beats i hi hhit hmiss]
    dsimp only
    have hine : i ≠ 0 := by omega
    rw [if_neg hine]
    have hprev : i - 1 < beats.length := by omega
    rw [getD_eq_get beats (i - 1) hprev, getD_eq_get beats i hi]
    have hint : beats.get ⟨i - 1, hprev⟩ < beats.get ⟨i, hi⟩ := by
      refine hmono ?_
      simp only [Fin.mk_lt_mk]
      omega
    rw [if_pos (by linarith)]
    rw [div_self (by linarith)]
  · intro i hi t hlow hhigh
    have hi' : i < beats.length := Nat.lt_of_succ_lt hi
    have hhit : t ≤ beats.get ⟨i + 1, hi⟩ := le_of_lt hhigh
    have hmiss : ∀ j (hj : j < i + 1),
        beats.get ⟨j, lt_trans hj hi⟩ < t := by
      intro j hj
      have hji : j ≤ i := by omega
      rcases eq_or_lt_of_le hji with rfl | hjlt
      · exact hlow
      · exact lt_trans (hmono (by simpa using hjlt)) hlow
    rw [time_to_beat_position, if_neg hne,
      findIdx_ge_eq_some t beats (i + 1) hi hhit hmiss]
    dsimp only
    rw [if_neg (by omega), show i + 1 - 1 = i from rfl]
    rw [getD_eq_get beats i hi', getD_eq_get beats (i + 1) hi]
    have hint : beats.get ⟨i, hi'⟩ < beats.get ⟨i + 1, hi⟩ := by
      refine hmono ?_
      simp only [Fin.mk_lt_mk]
      omega
    rw [if_pos (by linarith)]
    push_cast
    ring
  · intro t hlast
    have hl1 : beats.length - 1 < beats.length := by omega
    have hlastget : beats.getLast hne = beats.get ⟨beats.length - 1, hl1⟩ := by
      rw [List.getLast_eq_getElem]
      rfl
    have hall : ∀ b ∈ beats, b < t := by
      intro b hb
      rcases List.mem_iff_get.mp hb with ⟨⟨j, hj⟩, rfl⟩
      have hle : beats.get ⟨j, hj⟩ ≤ beats.get ⟨beats.length - 1, hl1⟩ := by
        refine hmono.monotone ?_
        simp only [Fin.mk_le_mk]
        omega
      rw [hlastget] at hlast
      exact lt_of_le_of_lt hle hlast
    constructor
    · intro h2
      rw [time_to_beat_position, if_neg hne, findIdx_ge_eq_none t beats hall]
      dsimp only
      rw [if_pos h2]
      have hp2 : beats.length - 2 < beats.length := by omega
      rw [getD_eq_get beats (beats.length - 1) hl1,
        getD_eq_get beats (beats.length - 2) hp2]
      have hint : beats.get ⟨beats.length - 2, hp2⟩
          < beats.get ⟨beats.length - 1, hl1⟩ := by
        refine hmono ?_
        simp only [Fin.mk_lt_mk]
        omega
      rw [if_pos (by linarith)]
    · intro h1
      rw [time_to_beat_position, if_neg hne, findIdx_ge_eq_none t beats hall]
      dsimp only
      rw [if_neg (by omega), h1]
      norm_num

theorem time_to_beat_position_characterized_witness :
    time_to_beat_position (1/2) [0, 1, 2] = 3/2 := by
  have h := (time_to_beat_position_characterized [0, 1, 2] (by simp)
      (by norm_num [List.sorted_cons])).2.2.1 0 (by norm_num) (1/2)
  norm_num [List.get] at h
  exact h

/-- C3 counterexample: the claim predicts `timeToBeatPosition(beats[1],
beats) = 1`, but on `beats = [0, 1, 2]` the code returns `2` at time
`beats[1] = 1` (the returned continuous index is shifted up by one from
index `1` on). -/
theorem time_to_beat_position_index_refuted :
    time_to_beat_position 1 [0, 1, 2] = 2 ∧ ((2 : ℚ) = 1 → False) := by
  constructor
  · have hfi : ([0, 1, 2] : List ℚ).findIdx? (fun b => decide ((1:ℚ) ≤ b))
        = some 1 := by
      norm_num [List.findIdx?]
    rw [time_to_beat_position, if_neg (by simp), hfi]
    dsimp only
    rw [if_neg (by omega), getD_eq_get [0, 1, 2] 0 (by norm_num),
      getD_eq_get [0, 1, 2] 1 (by norm_num)]
    norm_num [List.get]
  · norm_num

lemma tempo_value_eq (x : ℚ) (_hx : 0 < x) :
    (60000000 : ℚ) / (60 / x) = 1000000 * x := by
  field_simp
  ring

lemma pyInt_tempo_nonneg (x : ℚ) (hx : 0 < x) :
    0 ≤ pyInt (60000000 / (60 / x)) := by
  rw [tempo_value_eq x hx, pyInt, if_pos (by positivity)]
  exact Int.floor_nonneg.mpr (by positivity)

lemma pyInt_tempo_pos (x : ℚ) (hx : 0 < x) (hmicro : 1/1000000 ≤ x) :
    0 < pyInt (60000000 / (60 / x)) := by
  rw [tempo_value_eq x hx, pyInt, if_pos (by positivity)]
  have : (1 : ℚ) ≤ 1000000 * x := by linarith
  have h1 : (1 : ℤ) ≤ ⌊(1000000 : ℚ) * x⌋ := by
    rw [Int.le_floor]
    exact_mod_cast this
  omega

lemma tempoLoop_mem (tpb currentTick : ℤ) (htpb : 0 ≤ tpb) :
    ∀ (pairs : List (ℚ × ℚ)) (i : ℤ) (track : List TrackMsg),
      1 ≤ i →
      (track.map TrackMsg.delta).sum ≤ currentTick + (i - 1) * tpb →
      ∀ m ∈ tempoLoop tpb currentTick i pairs track,
        m ∈ track ∨ ∃ pr ∈ pairs, ∃ d : ℤ, 0 ≤ d ∧ 0 < pr.2 - pr.1
          ∧ m = .setTempo (pyInt (60000000 / (60 / (pr.2 - pr.1)))) d := by
  intro pairs
  induction pairs with
  | nil =>
    intro i track _ _ m hm
    rw [tempoLoop] at hm
    exact Or.inl hm
  | cons pr rest ih =>
    intro i track hi hsum m hm
    rw [tempoLoop] at hm
    have hstep : (i - 1) * tpb ≤ i * tpb := by nlinarith
    by_cases hint : pr.2 - pr.1 ≤ 0
    · rw [if_pos hint] at hm
      have := ih (i + 1) track (by omega) (by
        have : (i + 1 - 1) * tpb = i * tpb := by ring
        rw [this]
        linarith) m hm
      rcases this with hold | ⟨pr', hpr', d, hd⟩
      · exact Or.inl hold
      · exact Or.inr ⟨pr', List.mem_cons_of_mem pr hpr', d, hd⟩
    · rw [if_neg hint] at hm
      push_neg at hint
      set tick := currentTick + (i - 1) * tpb with htick
      set delta := tick - (track.map TrackMsg.delta).sum with hdelta
      have hdnn : 0 ≤ delta := by
        rw [hdelta, htick]
        linarith
      have hsum' : ((track ++
          [TrackMsg.setTempo (pyInt (60000000 / (60 / (pr.2 - pr.1)))) delta]).map
            TrackMsg.delta).sum ≤ currentTick + (i + 1 - 1) * tpb := by
        rw [List.map_append, List.sum_append]
        simp only [List.map_cons, List.map_nil, List.sum_cons, List.sum_nil]
        have : (i + 1 - 1) * tpb = i * tpb := by ring
        rw [this]
        simp only [TrackMsg.delta]
        rw [hdelta]
        have : (track.map TrackMsg.delta).sum
            + (tick - (track.map TrackMsg.delta).sum + 0) = tick := by ring
        rw [this, htick]
        linarith
      have := ih (i + 1) _ (by omega) hsum' m hm
      rcases this with hold | ⟨pr', hpr', d, hd⟩
      · rcases List.mem_append.mp hold with h1 | h2
        · exact Or.inl h1
        · simp only [List.mem_singleton] at h2
          exact Or.inr ⟨pr, List.mem_cons_self pr rest, delta, hdnn, hint, h2⟩
      · exact Or.inr ⟨pr', List.mem_cons_of_mem pr hpr', d, hd⟩

lemma absTicks_pairwise :
    ∀ (tr : List TrackMsg) (a : ℤ), (∀ m ∈ tr, 0 ≤ m.delta) →
      ((absTicks a tr).Pairwise (· ≤ ·) ∧ ∀ x ∈ absTicks a tr, a ≤ x) := by
  intro tr
  induction tr with
  | nil => intro a _; simp [absTicks]
  | cons m rest ih =>
    intro a hnn
    have hm : 0 ≤ m.delta := hnn m (List.mem_cons_self m rest)
    have hrest : ∀ x ∈ rest, 0 ≤ x.delta := by
      intro x hx
      exact hnn x (List.mem_cons_of_mem m hx)
    rcases ih (a + m.delta) hrest with ⟨hp, hbound⟩
    rw [absTicks]
    constructor
    · refine List.pairwise_cons.mpr ⟨?_, hp⟩
      intro x hx
      exact hbound x hx
    · intro x hx
      rcases List.mem_cons.mp hx with rfl | hx'
      · linarith
      · have := hbound x hx'
        linarith

/-- C7 (amended): every tempo track built by `create_tempo_track` (for a
non-negative tick resolution) has only non-negative deltas, hence
monotonically non-decreasing absolute ticks, and every emitted
`microsecondsPerBeat` is a non-negative integer; it is positive provided
the lead-in time and every positive inter-beat interval are at least one
microsecond, but `int(60000000/bpm)` truncates to `0` for shorter
intervals, so positivity does not hold unconditionally. -/
theorem create_tempo_track_guarantees (tpb : ℤ) (beats : List ℚ)
    (track : List TrackMsg) (htpb : 0 ≤ tpb)
    (h : create_tempo_track tpb beats = some track) :
    (∀ m ∈ track, 0 ≤ m.delta)
    ∧ (absTicks 0 track).Pairwise (· ≤ ·)
    ∧ (∀ tempo d, TrackMsg.setTempo tempo d ∈ track → 0 ≤ tempo)
    ∧ ((0 < beats.headD 0 → 1/1000000 ≤ beats.headD 0) →
       (∀ pr ∈ beats.zip beats.tail, 0 < pr.2 - pr.1 →
          1/1000000 ≤ pr.2 - pr.1) →
       temposPositive track = true) := by
  rcases beats with _ | ⟨b0, rest⟩
  · simp [create_tempo_track] at h
  · rw [create_tempo_track] at h
    simp only [List.tail_cons] at h
    set st :=
      if 0 < b0 then
        ([TrackMsg.trackName 0]
          ++ [TrackMsg.setTempo (pyInt (60000000 / (60 / b0))) 0], tpb)
      else ([TrackMsg.trackName 0], (0 : ℤ)) with hst
    have hst1 : ∀ m ∈ st.1, m.delta = 0 ∧
        (∀ tempo d, m = TrackMsg.setTempo tempo d →
          0 < b0 ∧ tempo = pyInt (60000000 / (60 / b0))) := by
      intro m hm
      rw [hst] at hm
      by_cases hb0 : 0 < b0
      · rw [if_pos hb0] at hm
        rcases List.mem_append.mp hm with h1 | h2
        · rw [List.mem_singleton] at h1
          subst h1
          exact ⟨rfl, by intro tempo d hc; exact absurd hc (by simp)⟩
        · rw [List.mem_singleton] at h2
          subst h2
          refine ⟨rfl, ?_⟩
          intro tempo d hc
          injection hc with h1 h2
          exact ⟨hb0, h1.symm⟩
      · rw [if_neg hb0] at hm
        rw [List.mem_singleton] at hm
        subst hm
        exact ⟨rfl, by intro tempo d hc; exact absurd hc (by simp)⟩
    have hst2 : 0 ≤ st.2 := by
      rw [hst]
      by_cases hb0 : 0 < b0
      · rw [if_pos hb0]; exact htpb
      · rw [if_neg hb0]
    have hsum0 : ((st.1.map TrackMsg.delta).sum : ℤ) ≤ st.2 + (1 - 1) * tpb := by
      have : (st.1.map TrackMsg.delta).sum = 0 := by
        rw [List.sum_eq_zero]
        intro x hx
        rcases List.mem_map.mp hx with ⟨m, hm, rfl⟩
        exact (hst1 m hm).1
      rw [this]
      linarith
    have hmem := tempoLoop_mem tpb st.2 htpb ((b0 :: rest).zip rest) 1 st.1
      (le_refl 1) hsum0
    have htrack : track = tempoLoop tpb st.2 1 ((b0 :: rest).zip rest) st.1
        ++ [TrackMsg.endOfTrack 0] := by
      injection h with h'
      rw [← h']
    have hmemtr : ∀ m ∈ track, m ∈ st.1
        ∨ (∃ pr ∈ (b0 :: rest).zip rest, ∃ d : ℤ, 0 ≤ d ∧ 0 < pr.2 - pr.1
            ∧ m = .setTempo (pyInt (60000000 / (60 / (pr.2 - pr.1)))) d)
        ∨ m = .endOfTrack 0 := by
      intro m hm
      rw [htrack] at hm
      rcases List.mem_append.mp hm with h1 | h2
      · rcases hmem m h1 with ha | hb
        · exact Or.inl ha
        · exact Or.inr (Or.inl hb)
      · simp only [List.mem_singleton] at h2
        exact Or.inr (Or.inr h2)
    have hdeltas : ∀ m ∈ track, 0 ≤ m.delta := by
      intro m hm
      rcases hmemtr m hm with h1 | ⟨pr, _, d, hd, _, rfl⟩ | h3
      · rw [(hst1 m h1).1]
      · exact hd
      · rw [h3]
        exact le_refl 0
    refine ⟨hdeltas, (absTicks_pairwise track 0 hdeltas).1, ?_, ?_⟩
    · intro tempo d hmem'
      rcases hmemtr _ hmem' with h1 | ⟨pr, _, d', _, hint, heq⟩ | h3
      · rcases ((hst1 _ h1).2 tempo d rfl) with ⟨hb0, rfl⟩
        exact pyInt_tempo_nonneg b0 hb0
      · injection heq with h1 h2
        rw [h1]
        exact pyInt_tempo_nonneg _ hint
      · exact absurd h3 (by simp)
    · intro hlead hints
      rw [temposPositive, List.all_eq_true]
      intro m hm
      rcases hmemtr m hm with h1 | ⟨pr, hpr, d', _, hint, rfl⟩ | h3
      · rcases hst1 m h1 with ⟨_, hform⟩
        rcases m with d | ⟨tempo, d⟩ | d
        · simp
        · rcases hform tempo d rfl with ⟨hb0, rfl⟩
          have := pyInt_tempo_pos b0 hb0 (hlead (by simpa using hb0))
          simpa using this
        · simp
      · have := pyInt_tempo_pos _ hint (hints pr (by simpa using hpr) hint)
        simpa using this
      · rw [h3]

theorem create_tempo_track_guarantees_witness :
    (∀ m ∈ [TrackMsg.trackName 0, TrackMsg.setTempo 500000 0,
        TrackMsg.endOfTrack 0], 0 ≤ m.delta)
    ∧ temposPositive [TrackMsg.trackName 0, TrackMsg.setTempo 500000 0,
        TrackMsg.endOfTrack 0] = true := by
  have hc : create_tempo_track 480 [0, 1/2]
      = some [TrackMsg.trackName 0, TrackMsg.setTempo 500000 0,
          TrackMsg.endOfTrack 0] := by
    norm_num [create_tempo_track, tempoLoop, pyInt, TrackMsg.delta]
  have h := create_tempo_track_guarantees 480 [0, 1/2] _ (by norm_num) hc
  refine ⟨h.1, h.2.2.2 (by norm_num) ?_⟩
  intro pr hpr hpos
  simp only [List.zip_cons_cons, List.zip_nil_right, List.tail_cons,
    List.mem_singleton] at hpr
  subst hpr
  norm_num

/-- C7 counterexample: a lead-in time below one microsecond makes
`int(60_000_000 / bpm)` truncate to `0`, so the synthesized lead-in tempo
event carries `microsecondsPerBeat = 0`, which is not a positive integer. -/
theorem create_tempo_track_zero_tempo :
    create_tempo_track 480 [1/2000000]
      = some [TrackMsg.trackName 0, TrackMsg.setTempo 0 0,
          TrackMsg.endOfTrack 0]
    ∧ temposPositive [TrackMsg.trackName 0, TrackMsg.setTempo 0 0,
        TrackMsg.endOfTrack 0] = false := by
  constructor
  · norm_num [create_tempo_track, tempoLoop, pyInt]
  · decide

lemma startEmit_of_ne_nil (shift : ℤ) :
    ∀ (l track : List DrumEvent), track ≠ [] →
      startEmit shift l track = (track ++ l, l) := by
  intro l
  induction l with
  | nil => intro track _; simp [startEmit]
  | cons e rest ih =>
    intro track htr
    rw [startEmit]
    have hne : track.isEmpty = false := by
      rcases track with _ | _
      · exact absurd rfl htr
      · rfl
    rw [hne]
    simp only [Bool.false_eq_true, if_false]
    rw [ih (track ++ [e]) (by simp)]
    simp

lemma startEmit_cons (shift : ℤ) (e : DrumEvent) (rest : List DrumEvent) :
    startEmit shift (e :: rest) []
      = ({ e with time := e.time + shift } :: rest,
          { e with time := e.time + shift } :: rest) := by
  rw [startEmit]
  simp only [List.isEmpty_nil, if_true]
  simp only [List.nil_append]
  rw [startEmit_of_ne_nil shift rest ([{ e with time := e.time + shift }])
    (by simp)]
  simp

lemma midLoop_done (sel : ℕ → ℕ) (lib : DrumLib) (bound midLen : ℤ)
    (fuel : ℕ) (track : List DrumEvent) (cur : ℤ) (dc m : ℕ)
    (h : ¬ cur < bound) :
    midLoop sel lib bound midLen fuel track cur dc m
      = some (track, cur, dc) := by
  rcases fuel with _ | fuel
  · rw [midLoop, if_neg h]
  · rw [midLoop, if_neg h]

lemma pick_of_ne_nil (k : ℕ) (l : List (List DrumEvent)) (h : l ≠ []) :
    ∃ a, pick k l = some a ∧ l.get? (k % l.length) = some a := by
  have hlen : 0 < l.length := List.length_pos.mpr h
  have hk : k % l.length < l.length := Nat.mod_lt k hlen
  rcases List.get?_eq_get hk with h'
  exact ⟨l.get ⟨k % l.length, hk⟩, h', h'⟩

lemma startStep_inv (bpb : ℤ) (lib : DrumLib) (prefix_beat : ℤ)
    (sel : ℕ → ℕ) (track1 : List DrumEvent) (lib1 : DrumLib) (cur1 : ℤ)
    (dc1 : ℕ)
    (h : startStep bpb lib prefix_beat sel = some (track1, lib1, cur1, dc1)) :
    (¬ 0 < bpb * 4 + prefix_beat + 1 ∧ lib1 = lib ∧ track1 = [])
    ∨ (0 < bpb * 4 + prefix_beat + 1
        ∧ ∃ frag, pick (sel 0) lib.start = some frag
        ∧ track1 = (startEmit (480 * (prefix_beat + 1)) frag []).1
        ∧ lib1 = startMutate lib prefix_beat (sel 0 % lib.start.length)
            frag) := by
  rw [startStep] at h
  by_cases hs : (0 : ℤ) < bpb * 4 + prefix_beat + 1
  · rw [if_pos hs] at h
    rcases hp : pick (sel 0) lib.start with _ | frag
    · rw [hp] at h; simp at h
    · rw [hp] at h
      dsimp only at h
      simp only [Option.some.injEq, Prod.mk.injEq] at h
      exact Or.inr ⟨hs, frag, rfl, h.1.symm, h.2.1.symm⟩
  · rw [if_neg hs] at h
    simp only [Option.some.injEq, Prod.mk.injEq] at h
    exact Or.inl ⟨hs, h.2.1.symm, h.1.symm⟩

lemma sample_lib_eq (bpb : ℤ) (target : List (List TrackMsg)) (lib : DrumLib)
    (prefix_beat : ℤ) (sel : ℕ → ℕ) (tr : List DrumEvent) (lib' : DrumLib)
    (h : sample_drum_loops bpb target lib prefix_beat sel = some (tr, lib')) :
    ∃ track1 cur1 dc1,
      startStep bpb lib prefix_beat sel = some (track1, lib', cur1, dc1) := by
  rw [sample_drum_loops] at h
  rcases hst : startStep bpb lib prefix_beat sel with _ | ⟨track1, lib1, cur1, dc1⟩
  · rw [hst] at h; simp at h
  · rw [hst] at h
    dsimp only at h
    rcases hml : midLoop sel lib1
        (((get_target_beats target).length : ℤ) - bpb * 5) (bpb * 2)
        ((((get_target_beats target).length : ℤ) - bpb * 5 - cur1).toNat)
        track1 cur1 dc1 0 with _ | res
    · rw [hml] at h; simp at h
    · rw [hml] at h
      dsimp only at h
      rcases res with ⟨track2, cur2, dc2⟩
      by_cases hend : cur2 < ((get_target_beats target).length : ℤ)
      · rw [if_pos hend] at h
        rcases hp2 : pick (sel dc2) lib1.ending with _ | frag2
        · rw [hp2] at h; simp at h
        · rw [hp2] at h
          simp only [Option.some.injEq, Prod.mk.injEq] at h
          rcases h with ⟨htr, hlib⟩
          subst hlib
          exact ⟨track1, cur1, dc1, rfl⟩
      · rw [if_neg hend] at h
        simp only [Option.some.injEq, Prod.mk.injEq] at h
        rcases h with ⟨htr, hlib⟩
        subst hlib
        exact ⟨track1, cur1, dc1, rfl⟩

/-- C8 (amended): assembling a drum track leaves every fragment category
except `start` unchanged, and within `start` every entry except the chosen
one unchanged; the chosen start fragment is mutated in place: its first
event's delta time is increased by `480 * (prefix_beat + 1)` ticks, so the
library is not immutable during assembly. -/
theorem sample_mutates_only_chosen_start
    (bpb : ℤ) (target : List (List TrackMsg)) (lib : DrumLib)
    (prefix_beat : ℤ) (sel : ℕ → ℕ) (tr : List DrumEvent) (lib' : DrumLib)
    (h : sample_drum_loops bpb target lib prefix_beat sel = some (tr, lib')) :
    lib'.midRegular = lib.midRegular ∧ lib'.midSmall = lib.midSmall
    ∧ lib'.midBig = lib.midBig ∧ lib'.ending = lib.ending
    ∧ (¬ 0 < bpb * 4 + prefix_beat + 1 → lib' = lib)
    ∧ (∀ i, i ≠ sel 0 % lib.start.length →
        lib'.start.get? i = lib.start.get? i)
    ∧ (∀ e rest, 0 < bpb * 4 + prefix_beat + 1 →
        lib.start.get? (sel 0 % lib.start.length) = some (e :: rest) →
        lib'.start.get? (sel 0 % lib.start.length)
          = some ({ e with time := e.time + 480 * (prefix_beat + 1) }
              :: rest)) := by
  obtain ⟨track1, cur1, dc1, hst⟩ :=
    sample_lib_eq bpb target lib prefix_beat sel tr lib' h
  rcases startStep_inv bpb lib prefix_beat sel track1 lib' cur1 dc1 hst with
    ⟨hneg, hlib, _⟩ | ⟨hpos, frag, hpick, _, hlib⟩
  · subst hlib
    exact ⟨rfl, rfl, rfl, rfl, fun _ => rfl, fun i _ => rfl,
      fun e rest hpos' _ => absurd hpos' hneg⟩
  · subst hlib
    rw [pick] at hpick
    have hjlt : sel 0 % lib.start.length < lib.start.length := by
      rcases List.get?_eq_some.mp hpick with ⟨hlt, _⟩
      exact hlt
    refine ⟨rfl, rfl, rfl, rfl, fun hneg' => absurd hpos hneg', ?_, ?_⟩
    · intro i hi
      show (lib.start.set (sel 0 % lib.start.length)
        (startEmit (480 * (prefix_beat + 1)) frag []).2).get? i
          = lib.start.get? i
      rw [List.get?_set]
      rw [if_neg (fun hc => hi hc.symm)]
    · intro e rest _ hget
      have hfrag : frag = e :: rest := by
        rw [hpick] at hget
        injection hget
      subst hfrag
      show (lib.start.set (sel 0 % lib.start.length)
        (startEmit (480 * (prefix_beat + 1)) (e :: rest) []).2).get?
          (sel 0 % lib.start.length)
          = some ({ e with time := e.time + 480 * (prefix_beat + 1) } :: rest)
      rw [startEmit_cons]
      rw [List.get?_set, if_pos rfl, hpick]
      rfl

theorem sample_mutates_only_chosen_start_witness :
    (DrumLib.mk [[⟨480, 36, 100, true⟩], [⟨0, 37, 100, true⟩]] [] [] [] []).ending
      = (DrumLib.mk [[⟨0, 36, 100, true⟩], [⟨0, 37, 100, true⟩]] [] [] [] []).ending
    ∧ (DrumLib.mk [[⟨480, 36, 100, true⟩], [⟨0, 37, 100, true⟩]] [] [] [] []).start.get? 1
      = (DrumLib.mk [[⟨0, 36, 100, true⟩], [⟨0, 37, 100, true⟩]] [] [] [] []).start.get? 1
    ∧ (DrumLib.mk [[⟨480, 36, 100, true⟩], [⟨0, 37, 100, true⟩]] [] [] [] []).start.get? 0
      = some [⟨480, 36, 100, true⟩] := by
  have h := sample_mutates_only_chosen_start 4 []
    (DrumLib.mk [[⟨0, 36, 100, true⟩], [⟨0, 37, 100, true⟩]] [] [] [] []) 0
    (fun _ => 0) [⟨480, 36, 100, true⟩]
    (DrumLib.mk [[⟨480, 36, 100, true⟩], [⟨0, 37, 100, true⟩]] [] [] [] [])
    (by decide)
  refine ⟨h.2.2.2.1, h.2.2.2.2.2.1 1 (by decide), ?_⟩
  have h7 := h.2.2.2.2.2.2 ⟨0, 36, 100, true⟩ [] (by decide) (by decide)
  simpa using h7

/-- C8 counterexample: with one loaded start fragment whose first event has
delta `0`, assembly with `prefix_beat = 0` leaves the library's stored
fragment with delta `480`: the fragment library is mutated, not immutable. -/
theorem sample_start_fragment_mutated :
    sample_drum_loops 4 [] (DrumLib.mk [[⟨0, 36, 100, true⟩]] [] [] [] []) 0
        (fun _ => 0)
      = some ([⟨480, 36, 100, true⟩],
          DrumLib.mk [[⟨480, 36, 100, true⟩]] [] [] [] [])
    ∧ (DrumLib.mk [[⟨480, 36, 100, true⟩]] [] [] [] []).start
      ≠ (DrumLib.mk [[⟨0, 36, 100, true⟩]] [] [] [] []).start := by
  exact ⟨by decide, by decide⟩

/-- C9 (amended): an empty target beat grid is not a fatal condition: the
start region still draws and emits its fragment (the mid and end regions
are skipped because the cursor already exceeds the bounds), and assembly
returns successfully whatever the other categories contain; only drawing
from an empty category aborts. -/
theorem sample_empty_grid_emits
    (bpb : ℤ) (target : List (List TrackMsg)) (lib : DrumLib)
    (prefix_beat : ℤ) (sel : ℕ → ℕ)
    (hgrid : get_target_beats target = [])
    (hbpb : 0 ≤ bpb) (hstart : 0 < bpb * 4 + prefix_beat + 1)
    (hne : lib.start ≠ []) :
    ∃ frag, pick (sel 0) lib.start = some frag
      ∧ sample_drum_loops bpb target lib prefix_beat sel
          = some ((startEmit (480 * (prefix_beat + 1)) frag []).1,
              startMutate lib prefix_beat (sel 0 % lib.start.length) frag) := by
  obtain ⟨frag, hp, _⟩ := pick_of_ne_nil (sel 0) lib.start hne
  refine ⟨frag, hp, ?_⟩
  have hst : startStep bpb lib prefix_beat sel
      = some ((startEmit (480 * (prefix_beat + 1)) frag []).1,
          startMutate lib prefix_beat (sel 0 % lib.start.length) frag,
          bpb * 4 + prefix_beat + 1, 1) := by
    rw [startStep, if_pos hstart, hp]
  rw [sample_drum_loops, hgrid]
  rw [hst]
  dsimp only
  rw [midLoop_done sel _ _ _ _ _ _ _ _ (by simp; nlinarith)]
  dsimp only
  rw [if_neg (by simp; linarith)]

theorem sample_empty_grid_emits_witness :
    ∃ frag, pick ((fun _ => 0) 0)
        (DrumLib.mk [[⟨0, 40, 80, true⟩]] [] [] [] []).start = some frag
      ∧ sample_drum_loops 4 [] (DrumLib.mk [[⟨0, 40, 80, true⟩]] [] [] [] [])
            1 (fun _ => 0)
          = some ((startEmit (480 * (1 + 1)) frag []).1,
              startMutate (DrumLib.mk [[⟨0, 40, 80, true⟩]] [] [] [] []) 1
                ((fun _ => 0) 0
                  % (DrumLib.mk [[⟨0, 40, 80, true⟩]] [] [] [] []).start.length)
                frag) := by
  exact sample_empty_grid_emits 4 [] (DrumLib.mk [[⟨0, 40, 80, true⟩]] [] [] [] [])
    1 (fun _ => 0) rfl (by decide) (by decide) (by decide)

/-- C9 counterexample: a target tempo track with no tempo events yields an
empty beat grid, yet assembly does not abort: it still emits the start
fragment's events and returns a track, so the empty grid is not surfaced as
an error. -/
theorem sample_empty_grid_no_abort :
    get_target_beats [[TrackMsg.trackName 0, TrackMsg.endOfTrack 0]] = []
    ∧ sample_drum_loops 4 [[TrackMsg.trackName 0, TrackMsg.endOfTrack 0]]
        (DrumLib.mk [[⟨0, 38, 90, true⟩]] [] [] [] []) 0 (fun _ => 0)
      = some ([⟨480, 38, 90, true⟩],
          DrumLib.mk [[⟨480, 38, 90, true⟩]] [] [] [] [])
    ∧ ([⟨480, 38, 90, true⟩] : List DrumEvent) ≠ [] := by
  exact ⟨by decide, by decide, by decide⟩
